import Mathlib

/-!
# Verification of the WeCom channel plugin against its specification

Shallow embedding of the WeCom (企业微信) webhook/send plugin.  JavaScript
strings are modelled as `List Nat` (UTF-16 code units) where the code works
with code units and byte buffers, and as `List Char` where the code works
with ordinary text.  `Buffer`s are `List Nat` (bytes).  External library
primitives (`node:crypto`'s SHA-1 and AES-256-CBC block transform) are
parameters of the embedded functions; everything this repository computes
around them is embedded concretely.  Fallible code returns `Option`:
a `try { ... } catch { return null }` body is modelled by an `Option`-valued
pipeline in which each throwing step produces `none`.
-/

namespace WeCom

/-! ## JavaScript string primitives

JS truthiness on strings (`!s` is true exactly for the empty string, and for
a missing/`null` argument) is modelled by comparing with `[]`; a missing
optional string argument is therefore also `[]`. -/

/-- The JavaScript `\s` / `trim` whitespace set, on a UTF-16 code unit. -/
def isJsWsCode (c : Nat) : Bool :=
  c = 32 ∨ c = 9 ∨ c = 10 ∨ c = 13 ∨ c = 11 ∨ c = 12 ∨
  c = 160 ∨ c = 0x1680 ∨ (0x2000 ≤ c ∧ c ≤ 0x200a) ∨
  c = 0x2028 ∨ c = 0x2029 ∨ c = 0x202f ∨ c = 0x205f ∨ c = 0x3000 ∨ c = 0xfeff

/-- JS `String.prototype.trim` on a code-unit list. -/
def jsTrimCodes (s : List Nat) : List Nat :=
  ((s.dropWhile isJsWsCode).reverse.dropWhile isJsWsCode).reverse

/-! ## Base64 decoding (`Buffer.from(str, "base64")`)

Node's base64 decoder is forgiving: it accepts the URL-safe alphabet,
ignores whitespace and other non-alphabet characters, stops at the first
`=`, and decodes a trailing group of 2 or 3 sextets to 1 or 2 bytes. -/

/-- Sextet value of one base64 character (standard and URL-safe alphabets). -/
def base64CharVal (c : Nat) : Option Nat :=
  if 65 ≤ c ∧ c ≤ 90 then some (c - 65)
  else if 97 ≤ c ∧ c ≤ 122 then some (c - 97 + 26)
  else if 48 ≤ c ∧ c ≤ 57 then some (c - 48 + 52)
  else if c = 43 ∨ c = 45 then some 62
  else if c = 47 ∨ c = 95 then some 63
  else none

/-- Pack groups of four sextets into three bytes; a final group of two or
three sextets yields one or two bytes. -/
def sextetsToBytes : List Nat → List Nat
  | a :: b :: c :: d :: rest =>
      (a * 4 + b / 16) :: ((b % 16) * 16 + c / 4) :: ((c % 4) * 64 + d) ::
        sextetsToBytes rest
  | [a, b] => [a * 4 + b / 16]
  | [a, b, c] => [a * 4 + b / 16, (b % 16) * 16 + c / 4]
  | _ => []

/-- `Buffer.from(s, "base64")` on a code-unit list. -/
def base64Decode (s : List Nat) : List Nat :=
  sextetsToBytes ((s.takeWhile (· ≠ 61)).filterMap base64CharVal)

/-! ## Signature verification (`verifyWeComSignature`, monitor.ts 52-81)

The SHA-1 compression itself lives in `node:crypto`; it enters the model as
the parameter `sha1 : List Nat → List Nat` from the message (the joined,
sorted inputs, as fed to `hash.update`) to the digest bytes.  The
`digest("hex")` step (lowercase hex) is embedded concretely. -/

/-- Code unit of one lowercase hex digit. -/
def hexCharCode (n : Nat) : Nat := if n < 10 then 48 + n else 87 + n

/-- `digest("hex")`: two lowercase hex characters per digest byte. -/
def hexDigest (bytes : List Nat) : List Nat :=
  (bytes.map (fun b => [hexCharCode (b / 16 % 16), hexCharCode (b % 16)])).flatten

/-- Lexicographic comparison of JS strings (`a <= b` on code units). -/
def lexLe : List Nat → List Nat → Bool
  | [], _ => true
  | _ :: _, [] => false
  | a :: as, b :: bs => if a < b then true else if a = b then lexLe as bs else false

/-- Insert into a lexicographically sorted list of strings. -/
def lexInsert (x : List Nat) : List (List Nat) → List (List Nat)
  | [] => [x]
  | y :: ys => if lexLe x y then x :: y :: ys else y :: lexInsert x ys

/-- JS `Array.prototype.sort()` on an array of strings (default string
comparison, lexicographic on code units). -/
def lexSort : List (List Nat) → List (List Nat)
  | [] => []
  | x :: xs => lexInsert x (lexSort xs)

/-- `verifyWeComSignature` (monitor.ts 52-81): reject empty/missing
arguments, SHA-1 the lexicographically sorted concatenation, hex-encode,
and compare with the supplied signature by the XOR-accumulate loop after a
length gate. -/
def verifyWeComSignature (sha1 : List Nat → List Nat)
    (token timestamp nonce encryptedMsg signature : List Nat) : Bool :=
  if token = [] ∨ timestamp = [] ∨ nonce = [] ∨ encryptedMsg = [] ∨ signature = [] then
    false
  else
    let str := (lexSort [token, timestamp, nonce, encryptedMsg]).flatten
    let hash := hexDigest (sha1 str)
    if hash.length ≠ signature.length then false
    else ((List.zipWith (fun a b => a ^^^ b) hash signature).foldl (fun r x => r ||| x) 0) = 0

/-! ## Symmetric decryption (`decryptWeComMessage`, monitor.ts 103-164)

The AES-256-CBC block transform (`createDecipheriv` + `update`/`final`
without padding removal) is abstracted as the parameter
`cbc : key → iv → ciphertext → Option rawPlaintext`; it returns `none` when
the library would throw (e.g. ciphertext not block-aligned).  With
`setAutoPadding(true)` (monitor.ts 131) the library then applies strict
PKCS#7 validation, embedded here as `pkcs7UnpadStrict`. -/

/-- Strict PKCS#7 padding removal as performed by the crypto library when
auto-padding is enabled: the last byte `p` must satisfy `1 ≤ p ≤ 16` and the
last `p` bytes must all equal `p`, else the decryptor throws (`none`). -/
def pkcs7UnpadStrict (b : List Nat) : Option (List Nat) :=
  match b.getLast? with
  | none => none
  | some p =>
      if 1 ≤ p ∧ p ≤ 16 ∧ p ≤ b.length ∧ (b.drop (b.length - p)).all (· = p)
      then some (b.take (b.length - p)) else none

/-- Manual padding removal of the verification script (part_002 40-43):
trim the last `p` bytes when `1 ≤ p ≤ 16` and the buffer is long enough,
otherwise keep the buffer unchanged. -/
def manualPadTrim (b : List Nat) : List Nat :=
  match b.getLast? with
  | none => b
  | some p => if 1 ≤ p ∧ p ≤ 16 ∧ p ≤ b.length then b.take (b.length - p) else b

/-- `buffer.readUInt32BE(0)` of a 4-byte (or longer) buffer. -/
def readUInt32BE (b : List Nat) : Nat :=
  match b with
  | b0 :: b1 :: b2 :: b3 :: _ => b0 * 16777216 + b1 * 65536 + b2 * 256 + b3
  | _ => 0

/-- Key-material decoding of monitor.ts 109-115: a 43-character
`encodingAESKey` is padded with one `=` (code 61) before base64 decoding. -/
def wecomKeyBytes (encodingAESKey : List Nat) : List Nat :=
  base64Decode (if encodingAESKey.length = 43 then encodingAESKey ++ [61] else encodingAESKey)

/-- Structural parse of the decrypted buffer (monitor.ts 134-152): skip the
16 random bytes, read the big-endian message length, extract the message
and the trailing receive id. -/
def wecomParsePlain (decrypted : List Nat) : Option (List Nat × List Nat) :=
  if decrypted.length < 20 then none
  else
    let msgLen := readUInt32BE (decrypted.drop 16)
    if msgLen > decrypted.length - 20 then none
    else some ((decrypted.drop 20).take msgLen, decrypted.drop (20 + msgLen))

/-- `decryptWeComMessage` without the receive-id check (monitor.ts 108-152):
decode the key (must be exactly 32 bytes), take the first 16 bytes as IV,
base64-decode the ciphertext (must be non-empty), run the block cipher with
the library's automatic strict padding removal, and structurally parse the
plaintext into message and receive id. -/
def decryptWeComMessageRaw (cbc : List Nat → List Nat → List Nat → Option (List Nat))
    (encryptedMsg encodingAESKey : List Nat) : Option (List Nat × List Nat) :=
  let aesKey := wecomKeyBytes encodingAESKey
  if aesKey.length ≠ 32 then none
  else
    let iv := aesKey.take 16
    let encrypted := base64Decode encryptedMsg
    if encrypted.length = 0 then none
    else
      match cbc aesKey iv encrypted with
      | none => none
      | some raw =>
          match pkcs7UnpadStrict raw with
          | none => none
          | some decrypted => wecomParsePlain decrypted

/-- `decryptWeComMessage` (monitor.ts 103-164).  `corpId = []` models a
missing or empty corp id (both falsy in JS).  The receive-id check
(monitor.ts 155-158) fires only when corp id *and* receive id are truthy
and the receive id is neither `corpId` nor `"$" ++ corpId` (36 is `$`). -/
def decryptWeComMessage (cbc : List Nat → List Nat → List Nat → Option (List Nat))
    (encryptedMsg encodingAESKey corpId : List Nat) : Option (List Nat) :=
  match decryptWeComMessageRaw cbc encryptedMsg encodingAESKey with
  | none => none
  | some (msg, receiveid) =>
      if corpId ≠ [] ∧ receiveid ≠ [] ∧ receiveid ≠ corpId ∧ receiveid ≠ 36 :: corpId
      then none else some msg

/-! ## The standalone verification script's `decrypt` (part_002 17-52)

This is the only decryption routine in the repository that repairs
`+`-to-space corruption, strips embedded `\n\r\t`, disables the cipher's
automatic padding and trims PKCS#7 padding manually.  Exceptions thrown by
the script are modelled as `none`. -/

/-- `encodingAESKey.trim().replace(/\s/g, "")` (part_002 18). -/
def scriptKeyFix (s : List Nat) : List Nat :=
  (jsTrimCodes s).filter (fun c => ¬ isJsWsCode c)

/-- `encryptedMsg.trim().replace(/ /g, "+").replace(/[\n\r\t]/g, "")`
(part_002 19): restore `+` characters corrupted into spaces by a
form-decoder and strip embedded control characters. -/
def scriptCipherFix (s : List Nat) : List Nat :=
  ((jsTrimCodes s).map (fun c => if c = 32 then 43 else c)).filter
    (fun c => c ≠ 10 ∧ c ≠ 13 ∧ c ≠ 9)

/-- `decrypt` of the verification script (part_002 17-52): fix up the key
and ciphertext text, require a 43-character key decoding to 32 bytes,
decrypt with auto-padding disabled, trim the padding manually, and parse
the plaintext into message and receive id (no receive-id identity check). -/
def scriptDecrypt (cbc : List Nat → List Nat → List Nat → Option (List Nat))
    (encryptedMsg encodingAESKey : List Nat) : Option (List Nat × List Nat) :=
  let rawKey := scriptKeyFix encodingAESKey
  let rawEnc := scriptCipherFix encryptedMsg
  if rawKey.length ≠ 43 then none
  else
    let aesKey := base64Decode (rawKey ++ [61])
    if aesKey.length ≠ 32 then none
    else
      let iv := aesKey.take 16
      let encrypted := base64Decode rawEnc
      if encrypted.length = 0 then none
      else
        match cbc aesKey iv encrypted with
        | none => none
        | some raw =>
            let decrypted := manualPadTrim raw
            if decrypted.length < 20 then none
            else
              let msgLen := readUInt32BE (decrypted.drop 16)
              if msgLen > decrypted.length - 20 then none
              else some ((decrypted.drop 20).take msgLen, decrypted.drop (20 + msgLen))

/-- Follows the spec's words for §4.3 decryption (the behaviour claim C2
attributes to `decryptWeComMessage`): same key handling, but the ciphertext
is base64-decoded after tolerating `+`-to-space corruption and stripping
embedded control characters, and PKCS#7 padding is removed manually (the
last-byte pad length, if between 1 and 16, is trimmed) instead of by the
cipher library. -/
def decryptWeComMessageAsSpecified (cbc : List Nat → List Nat → List Nat → Option (List Nat))
    (encryptedMsg encodingAESKey corpId : List Nat) : Option (List Nat) :=
  let aesKey := wecomKeyBytes encodingAESKey
  if aesKey.length ≠ 32 then none
  else
    let iv := aesKey.take 16
    let encrypted := base64Decode (scriptCipherFix encryptedMsg)
    if encrypted.length = 0 then none
    else
      match cbc aesKey iv encrypted with
      | none => none
      | some raw =>
          match wecomParsePlain (manualPadTrim raw) with
          | none => none
          | some (msg, receiveid) =>
              if corpId ≠ [] ∧ receiveid ≠ [] ∧ receiveid ≠ corpId ∧ receiveid ≠ 36 :: corpId
              then none else some msg

/-- The `+`-to-space corruption the spec describes: an intermediate
form-decoder turns every `+` (43) of the ciphertext into a space (32). -/
def spacifyPlus (s : List Nat) : List Nat :=
  s.map (fun c => if c = 43 then 32 else c)

/-! ## Webhook target registry (monitor.ts 34-45, 814-844)

Paths are `List Char`; the registry (`webhookTargets`, a `Map`) is an
insertion-ordered association list with JS `Map` get/set/delete semantics. -/

/-- One registered webhook target, restricted to the fields the routing
logic reads (`account.accountId` and `account.webhookToken`; the token is
`""` when not configured, which is how the handler tests it). -/
structure WebhookBinding where
  accountId : String
  webhookToken : String
  deriving DecidableEq

/-- `normalizeWebhookPath` (monitor.ts 43-45):
`path.replace(/\/+$/, "") || "/"`. -/
def normalizeWebhookPath (p : List Char) : List Char :=
  let s := (p.reverse.dropWhile (fun c => c = '/')).reverse
  if s = [] then ['/'] else s

/-- `Map.prototype.get`. -/
def mapGet : List (List Char × List WebhookBinding) → List Char → Option (List WebhookBinding)
  | [], _ => none
  | (k, v) :: rest, key => if k = key then some v else mapGet rest key

/-- `Map.prototype.set`: replace in place, or append a new entry. -/
def mapSet : List (List Char × List WebhookBinding) → List Char → List WebhookBinding →
    List (List Char × List WebhookBinding)
  | [], key, v => [(key, v)]
  | (k, w) :: rest, key, v =>
      if k = key then (key, v) :: rest else (k, w) :: mapSet rest key v

/-- `Map.prototype.delete`. -/
def mapDelete (m : List (List Char × List WebhookBinding)) (key : List Char) :
    List (List Char × List WebhookBinding) :=
  m.filter (fun e => e.1 ≠ key)

/-- Registration in `monitorWeComProvider` (monitor.ts 811-824): normalize
the path and append the new binding to the existing list. -/
def registerWebhookTarget (m : List (List Char × List WebhookBinding))
    (path : List Char) (b : WebhookBinding) : List (List Char × List WebhookBinding) :=
  let normalizedPath := normalizeWebhookPath path
  let existing := (mapGet m normalizedPath).getD []
  mapSet m normalizedPath (existing ++ [b])

/-- The `stop` closure (monitor.ts 828-838): drop the stopping account's
bindings at the (already normalized) path and delete the entry when the
remaining list is empty. -/
def unregisterWebhookTarget (m : List (List Char × List WebhookBinding))
    (normalizedPath : List Char) (accountId : String) :
    List (List Char × List WebhookBinding) :=
  let current := (mapGet m normalizedPath).getD []
  let filtered := current.filter (fun e => e.accountId ≠ accountId)
  if filtered = [] then mapDelete m normalizedPath
  else mapSet m normalizedPath filtered

/-! ## POST target selection (monitor.ts 639-653) and GET account
resolution (monitor.ts 562-579) -/

/-- JS truthiness of `url.searchParams.get(...)`: `null` and `""` are
falsy. -/
def jsTruthyParam : Option String → Bool
  | none => false
  | some s => s ≠ ""

/-- The `targets.find(...)` of monitor.ts 641-644: the first binding whose
webhook token is unset, or whose token equals the `token` query
parameter. -/
def findPostTarget (targets : List WebhookBinding) (tokenParam : Option String) :
    Option WebhookBinding :=
  targets.find? (fun e =>
    if e.webhookToken = "" then true else tokenParam = some e.webhookToken)

/-- Outcome of POST target selection. -/
inductive PostTargetSelection where
  | unauthorized
  | selected (b : WebhookBinding)
  deriving DecidableEq

/-- POST target selection (monitor.ts 639-653): prefer the first binding
matching `findPostTarget`; when none matches, a truthy `token` parameter is
rejected with 401, otherwise the first registered binding is used.  (The
handler only reaches this code with a non-empty target list; the `[]` case
is unreachable.) -/
def selectPostTarget (targets : List WebhookBinding) (tokenParam : Option String) :
    PostTargetSelection :=
  match findPostTarget targets tokenParam with
  | some t => .selected t
  | none =>
      if jsTruthyParam tokenParam then .unauthorized
      else
        match targets with
        | t :: _ => .selected t
        | [] => .unauthorized

/-- GET account resolution (monitor.ts 562-579): the first registered
binding for the path when any exists, otherwise the account re-resolved
from live configuration (`fallback`; `none` when that fails or is not
configured).  The `token` query parameter plays no part. -/
def selectGetAccount (targets : List WebhookBinding) (fallback : Option WebhookBinding) :
    Option WebhookBinding :=
  match targets with
  | t :: _ => some t
  | [] => fallback

/-! ## GET URL-verification handler (monitor.ts 548-618)

Query parameters are code-unit lists with `[]` for a missing or empty
value (both falsy).  The response records the status, whether the
`text/plain; charset=utf-8` content type was set, and the body. -/

/-- The account fields the GET verification handler reads; `[]` encodes a
missing `webhookToken` / `encodingAESKey` / `corpId`. -/
structure WeComAccountView where
  webhookToken : List Nat
  encodingAESKey : List Nat
  corpId : List Nat
  deriving DecidableEq

/-- An HTTP response of the webhook handler. -/
structure WeComHttpResponse where
  status : Nat
  textPlain : Bool
  body : List Nat
  deriving DecidableEq

/-- The literal body `"ok"`. -/
def okBody : List Nat := [111, 107]

/-- The literal body `"unauthorized"`. -/
def unauthorizedBody : List Nat := [117, 110, 97, 117, 116, 104, 111, 114, 105, 122, 101, 100]

/-- The literal body `"decrypt failed"`. -/
def decryptFailedBody : List Nat :=
  [100, 101, 99, 114, 121, 112, 116, 32, 102, 97, 105, 108, 101, 100]

/-- `account?.webhookToken` with a possibly absent account. -/
def accountToken : Option WeComAccountView → List Nat
  | none => []
  | some a => a.webhookToken

/-- `account?.encodingAESKey` with a possibly absent account. -/
def accountAESKey : Option WeComAccountView → List Nat
  | none => []
  | some a => a.encodingAESKey

/-- `account.corpId` (read only inside the `encodingAESKey` branch). -/
def accountCorpId : Option WeComAccountView → List Nat
  | none => []
  | some a => a.corpId

/-- The GET (URL verification) branch of `handleWeComWebhookRequest`
(monitor.ts 548-618): no `echostr` ⇒ 200 `"ok"`; signature verified only
when a webhook token is configured and `msg_signature`, `timestamp`,
`nonce` are all present (401 on failure); with an `encodingAESKey`
configured, `echostr` is decrypted (400 on failure, else 200 `text/plain`
with the plaintext); without one, `echostr` is echoed back. -/
def handleWeComWebhookGet (sha1 : List Nat → List Nat)
    (cbc : List Nat → List Nat → List Nat → Option (List Nat))
    (account : Option WeComAccountView)
    (echostr msgSignature timestamp nonce : List Nat) : WeComHttpResponse :=
  if echostr = [] then ⟨200, false, okBody⟩
  else if accountToken account ≠ [] ∧ msgSignature ≠ [] ∧ timestamp ≠ [] ∧ nonce ≠ [] ∧
      verifyWeComSignature sha1 (accountToken account) timestamp nonce echostr msgSignature
        = false then
    ⟨401, false, unauthorizedBody⟩
  else if accountAESKey account ≠ [] then
    match decryptWeComMessage cbc echostr (accountAESKey account) (accountCorpId account) with
    | none => ⟨400, false, decryptFailedBody⟩
    | some m => ⟨200, true, m⟩
  else ⟨200, true, echostr⟩

/-! ## Outbound chunker (part_001 283-303)

Text is `List Char`.  The `while` loop is embedded with a fuel parameter;
`wecomChunker` supplies `text.length` fuel, which step-wise length decrease
shows to be sufficient. -/

/-- JS whitespace on a `Char` (the `\s` / `trim` set). -/
def isJsWs (c : Char) : Bool := isJsWsCode c.toNat

/-- JS `String.prototype.trimStart`. -/
def jsTrimStart (l : List Char) : List Char := l.dropWhile isJsWs

/-- JS `String.prototype.trimEnd`. -/
def jsTrimEnd (l : List Char) : List Char := (l.reverse.dropWhile isJsWs).reverse

/-- JS `String.prototype.lastIndexOf` for a single character (-1 when
absent). -/
def lastIndexOfChar (s : List Char) (c : Char) : Int :=
  match s.reverse.findIdx? (fun x => x = c) with
  | some i => ((s.length - 1 - i : Nat) : Int)
  | none => -1

/-- One step of the chunker's `while` body (part_001 288-300): the break
index inside the window of `limit` characters. -/
def chunkBreakIdx (window : List Char) (limit : Nat) : Nat :=
  let lastNewline := lastIndexOfChar window '\n'
  let lastSpace := lastIndexOfChar window ' '
  let breakIdx0 : Int := if lastNewline > 0 then lastNewline else lastSpace
  if breakIdx0 ≤ 0 then limit else breakIdx0.toNat

/-- `breakIdx < remaining.length && /\s/.test(remaining[breakIdx])`
(part_001 297); an out-of-range index reads `undefined`, which the regex
test rejects. -/
def chunkBrokeOnSeparator (remaining : List Char) (breakIdx : Nat) : Bool :=
  match remaining.drop breakIdx with
  | c :: _ => isJsWs c
  | [] => false

/-- `Math.min(remaining.length, breakIdx + (brokeOnSeparator ? 1 : 0))`
(part_001 298). -/
def chunkNextStart (remaining : List Char) (breakIdx : Nat) : Nat :=
  min remaining.length
    (breakIdx + (if chunkBrokeOnSeparator remaining breakIdx then 1 else 0))

/-- The chunker's `while` loop (part_001 287-301), with fuel. -/
def chunkLoop (limit : Nat) : Nat → List Char → List (List Char)
  | 0, remaining => if remaining.length = 0 then [] else [remaining]
  | fuel + 1, remaining =>
      if remaining.length ≤ limit then
        if remaining.length = 0 then [] else [remaining]
      else
        let breakIdx := chunkBreakIdx (remaining.take limit) limit
        let chunk := jsTrimEnd (remaining.take breakIdx)
        let rest := jsTrimStart (remaining.drop (chunkNextStart remaining breakIdx))
        if chunk.length = 0 then chunkLoop limit fuel rest
        else chunk :: chunkLoop limit fuel rest

/-- The outbound `chunker` (part_001 283-303).  A non-positive JS `limit`
is modelled by `limit = 0` (all such limits take the early-return path). -/
def wecomChunker (text : List Char) (limit : Nat) : List (List Char) :=
  if text.length = 0 then []
  else if limit = 0 ∨ text.length ≤ limit then [text]
  else chunkLoop limit text.length text

/-- `chunks` interleaved with removed all-whitespace separators rebuild
`text`: formalizes "the concatenation of the chunks, ignoring the removed
separator/trimmed whitespace, reconstructs the original text". -/
inductive ChunksCover : List (List Char) → List Char → Prop
  | nil (w : List Char) (hw : ∀ ch ∈ w, isJsWs ch = true) : ChunksCover [] w
  | cons (w c : List Char) (cs : List (List Char)) (t : List Char)
      (hw : ∀ ch ∈ w, isJsWs ch = true) (h : ChunksCover cs t) :
      ChunksCover (c :: cs) (w ++ (c ++ t))

/-- Index of the last JS-whitespace character of a window; follows the
spec's words "the last whitespace within the window". -/
def lastWhitespaceIndex (window : List Char) : Option Nat :=
  match window.reverse.findIdx? isJsWs with
  | some i => some (window.length - 1 - i)
  | none => none

/-! ## Inbound payload field extraction (monitor.ts 262-268)

Values produced by the payload parsers are strings or numbers; a payload is
modelled as its property lookup function. -/

/-- A parsed payload value (string or number, as produced by the JSON/XML
parsers for the canonical fields). -/
inductive JVal where
  | str (s : String)
  | num (n : Int)
  deriving DecidableEq

/-- The canonical inbound fields read by `processWeComMessage`
(monitor.ts 262-268).  `createTime = none` stands for the runtime default
`Date.now() / 1000`; `agentId` falls back to the account's agent id. -/
structure WeComInboundFields where
  fromUserId : String
  toCorpId : String
  content : String
  msgId : String
  createTime : Option Int
  agentId : String
  deriving DecidableEq

/-- Field extraction of monitor.ts 262-268: each lookup uses exactly one
property name.  `String(payload.MsgId ?? "")` renders a numeric `MsgId` in
decimal and an absent one as `""`. -/
def extractWeComFields (payload : String → Option JVal) (accountAgentId : String) :
    WeComInboundFields where
  fromUserId := match payload "FromUserName" with | some (.str s) => s | _ => ""
  toCorpId := match payload "ToUserName" with | some (.str s) => s | _ => ""
  content := match payload "Content" with | some (.str s) => s | _ => ""
  msgId := match payload "MsgId" with
    | some (.str s) => s
    | some (.num n) => toString n
    | none => ""
  createTime := match payload "CreateTime" with | some (.num n) => some n | _ => none
  agentId := match payload "AgentID" with | some (.str s) => s | _ => accountAgentId

/-! ## Outbound send (`sendMessageWeCom`, send.ts 63-125)

Account resolution and the HTTP call are external; the embedded part is the
guard logic, target normalization and the text-message parameter record
that is handed to the vendor send API. -/

/-- The addressing part of a send (`normalizeWeComTarget`, send.ts 47-60). -/
inductive WeComTarget where
  | touser (id : List Char)
  | toparty (id : List Char)
  | totag (id : List Char)
  deriving DecidableEq

/-- `normalizeWeComTarget` (send.ts 47-60): `party:`/`tag:` prefixes select
department/tag addressing, a leading `@` is stripped from a user id. -/
def normalizeWeComTarget (target : List Char) : WeComTarget :=
  let trimmed := jsTrimStart (jsTrimEnd target)
  if trimmed.take 6 = "party:".toList then .toparty (trimmed.drop 6)
  else if trimmed.take 4 = "tag:".toList then .totag (trimmed.drop 4)
  else
    .touser (match trimmed with
      | '@' :: rest => rest
      | l => l)

/-- The text-message parameters handed to the vendor send API. -/
structure WeComTextParams where
  target : WeComTarget
  content : List Char
  deriving DecidableEq

/-- The guard and parameter construction of `sendMessageWeCom`
(send.ts 63-113); `dest` is the JS parameter `to`.  An empty target or text
yields an error result (`none` here); the content sent is
`text.slice(0, 2048)` regardless of any configured chunk limit. -/
def sendMessageWeComParams (dest text : List Char) : Option WeComTextParams :=
  if jsTrimStart (jsTrimEnd dest) = [] then none
  else if jsTrimStart (jsTrimEnd text) = [] then none
  else some { target := normalizeWeComTarget dest, content := text.take 2048 }

/-! ## Helper lemmas -/

theorem lor_zero_iff (a b : Nat) : a ||| b = 0 ↔ a = 0 ∧ b = 0 := by
  constructor
  · intro h
    refine ⟨Nat.zero_of_testBit_eq_false fun i => ?_, Nat.zero_of_testBit_eq_false fun i => ?_⟩
    · have := congrArg (fun n => Nat.testBit n i) h
      simp only [Nat.testBit_lor, Nat.zero_testBit, Bool.or_eq_false_iff] at this
      exact this.1
    · have := congrArg (fun n => Nat.testBit n i) h
      simp only [Nat.testBit_lor, Nat.zero_testBit, Bool.or_eq_false_iff] at this
      exact this.2
  · rintro ⟨rfl, rfl⟩; rfl

theorem foldl_lor_zero (l : List Nat) (a : Nat) :
    (l.foldl (fun r x => r ||| x) a = 0) ↔ (a = 0 ∧ ∀ x ∈ l, x = 0) := by
  induction l generalizing a with
  | nil => simp
  | cons y ys ih =>
    simp only [List.foldl_cons, ih, lor_zero_iff, List.mem_cons]
    constructor
    · rintro ⟨⟨ha, hy⟩, hall⟩
      exact ⟨ha, fun x hx => hx.elim (fun h => h ▸ hy) (hall x)⟩
    · rintro ⟨ha, hall⟩
      exact ⟨⟨ha, hall y (Or.inl rfl)⟩, fun x hx => hall x (Or.inr hx)⟩

theorem zipWith_xor_zero (h s : List Nat) (hl : h.length = s.length) :
    (∀ x ∈ List.zipWith (fun a b => a ^^^ b) h s, x = 0) ↔ h = s := by
  induction h generalizing s with
  | nil => cases s with
    | nil => simp
    | cons b bs => simp at hl
  | cons a as ih =>
    cases s with
    | nil => simp at hl
    | cons b bs =>
      simp only [List.zipWith_cons_cons, List.mem_cons, List.cons.injEq]
      rw [List.length_cons, List.length_cons] at hl
      constructor
      · intro hall
        have hab : a = b := Nat.xor_eq_zero.mp (hall _ (Or.inl rfl))
        exact ⟨hab, (ih bs (by omega)).mp fun x hx => hall x (Or.inr hx)⟩
      · rintro ⟨rfl, rfl⟩
        intro x hx
        rcases hx with h | h
        · simpa using h
        · exact ((ih _ (by omega)).mpr rfl) x h

/-- Every enumerated failure of the decryption pipeline yields `none`:
bad key length, empty decoded ciphertext, a throwing cipher, strict-padding
rejection, too-short plaintext, oversized message length. -/
theorem decryptWeComMessage_none_cases
    (cbc : List Nat → List Nat → List Nat → Option (List Nat))
    (enc key corp : List Nat)
    (h : (wecomKeyBytes key).length ≠ 32 ∨
      base64Decode enc = [] ∨
      cbc (wecomKeyBytes key) ((wecomKeyBytes key).take 16) (base64Decode enc) = none ∨
      (∃ raw, cbc (wecomKeyBytes key) ((wecomKeyBytes key).take 16) (base64Decode enc)
          = some raw ∧ pkcs7UnpadStrict raw = none) ∨
      (∃ raw d, cbc (wecomKeyBytes key) ((wecomKeyBytes key).take 16) (base64Decode enc)
          = some raw ∧ pkcs7UnpadStrict raw = some d ∧ d.length < 20) ∨
      (∃ raw d, cbc (wecomKeyBytes key) ((wecomKeyBytes key).take 16) (base64Decode enc)
          = some raw ∧ pkcs7UnpadStrict raw = some d ∧ 20 ≤ d.length ∧
          readUInt32BE (d.drop 16) > d.length - 20)) :
    decryptWeComMessage cbc enc key corp = none := by
  unfold decryptWeComMessage decryptWeComMessageRaw wecomParsePlain
  by_cases h32 : (wecomKeyBytes key).length ≠ 32
  · simp [h32]
  · push_neg at h32
    by_cases henc : (base64Decode enc).length = 0
    · simp [henc, h32]
    · rcases h with h | h | h | ⟨raw, hraw, hpk⟩ | ⟨raw, d, hraw, hpk, hd⟩ |
        ⟨raw, d, hraw, hpk, hd, hlen⟩
      · omega
      · exact absurd (congrArg List.length h) (by simpa using henc)
      · simp [h32, henc, h]
      · simp [h32, henc, hraw, hpk]
      · simp [h32, henc, hraw, hpk, hd]
      · simp [h32, henc, hraw, hpk, show ¬ d.length < 20 by omega, hlen]

theorem base64CharVal_not_special (c v : Nat) (h : base64CharVal c = some v) :
    isJsWsCode c = false ∧ c ≠ 32 ∧ c ≠ 10 ∧ c ≠ 13 ∧ c ≠ 9 := by
  have hc : (65 ≤ c ∧ c ≤ 90) ∨ (97 ≤ c ∧ c ≤ 122) ∨ (48 ≤ c ∧ c ≤ 57) ∨
      c = 43 ∨ c = 45 ∨ c = 47 ∨ c = 95 := by
    unfold base64CharVal at h
    split_ifs at h with h1 h2 h3 h4 h5 <;> omega
  refine ⟨?_, by omega, by omega, by omega, by omega⟩
  simp only [isJsWsCode, decide_eq_false_iff_not]
  omega

theorem jsTrimCodes_eq_self (s : List Nat)
    (h1 : ∀ a ∈ s.head?, isJsWsCode a = false)
    (h2 : ∀ a ∈ s.getLast?, isJsWsCode a = false) :
    jsTrimCodes s = s := by
  unfold jsTrimCodes
  have d1 : s.dropWhile isJsWsCode = s := by
    cases s with
    | nil => rfl
    | cons a as => rw [List.dropWhile_cons_of_neg (by simpa using h1 a rfl)]
  rw [d1]
  have d2 : s.reverse.dropWhile isJsWsCode = s.reverse := by
    cases hr : s.reverse with
    | nil => rfl
    | cons a as =>
      have ha : s.getLast? = some a := by rw [← List.head?_reverse, hr]; rfl
      rw [List.dropWhile_cons_of_neg (by simpa using h2 a ha)]
  rw [d2, List.reverse_reverse]

theorem b64_all_not_special (e : List Nat)
    (he : ∀ c ∈ e, (base64CharVal c).isSome = true ∨ c = 61) :
    ∀ c ∈ e, isJsWsCode c = false ∧ c ≠ 32 ∧ c ≠ 10 ∧ c ≠ 13 ∧ c ≠ 9 := by
  intro c hce
  rcases he c hce with h | rfl
  · obtain ⟨v, hv⟩ := Option.isSome_iff_exists.mp h
    exact base64CharVal_not_special c v hv
  · exact ⟨by decide, by decide, by decide, by decide, by decide⟩

theorem scriptCipherFix_id (e : List Nat)
    (he : ∀ c ∈ e, (base64CharVal c).isSome = true ∨ c = 61) :
    scriptCipherFix e = e := by
  have hall := b64_all_not_special e he
  unfold scriptCipherFix
  rw [jsTrimCodes_eq_self e
    (fun a ha => (hall a (List.mem_of_mem_head? ha)).1)
    (fun a ha => (hall a (List.mem_of_mem_getLast? ha)).1)]
  have hmap : e.map (fun c => if c = 32 then 43 else c) = e := by
    conv_rhs => rw [← List.map_id e]
    exact List.map_congr_left (fun a ha => by simp [(hall a ha).2.1])
  rw [hmap]
  exact List.filter_eq_self.mpr (fun a ha => by
    have := hall a ha
    simp only [decide_eq_true_eq]
    exact ⟨this.2.2.1, this.2.2.2.1, this.2.2.2.2⟩)

theorem scriptCipherFix_spacify (e : List Nat)
    (he : ∀ c ∈ e, (base64CharVal c).isSome = true ∨ c = 61)
    (hh : ∀ a ∈ e.head?, a ≠ 43) (hl : ∀ a ∈ e.getLast?, a ≠ 43) :
    scriptCipherFix (spacifyPlus e) = e := by
  have hall := b64_all_not_special e he
  unfold scriptCipherFix spacifyPlus
  have htrim : jsTrimCodes (e.map (fun c => if c = 43 then 32 else c)) =
      e.map (fun c => if c = 43 then 32 else c) := by
    refine jsTrimCodes_eq_self _ (fun a ha => ?_) (fun a ha => ?_)
    · rw [List.head?_map] at ha
      cases hhe : e.head? with
      | none => rw [hhe] at ha; exact Option.noConfusion ha
      | some b =>
        rw [hhe] at ha
        have hb : a = if b = 43 then 32 else b := by simpa using ha.symm
        have hb43 : b ≠ 43 := hh b (by rw [hhe]; rfl)
        rw [hb, if_neg hb43]
        exact (hall b (List.mem_of_mem_head? hhe)).1
    · rw [← List.head?_reverse, ← List.map_reverse, List.head?_map,
        List.head?_reverse] at ha
      cases hhe : e.getLast? with
      | none => rw [hhe] at ha; exact Option.noConfusion ha
      | some b =>
        rw [hhe] at ha
        have hb : a = if b = 43 then 32 else b := by simpa using ha.symm
        have hb43 : b ≠ 43 := hl b (by rw [hhe]; rfl)
        rw [hb, if_neg hb43]
        exact (hall b (List.mem_of_mem_getLast? hhe)).1
  rw [htrim, List.map_map]
  have hmap : e.map ((fun c => if c = 32 then 43 else c) ∘ (fun c => if c = 43 then 32 else c))
      = e := by
    conv_rhs => rw [← List.map_id e]
    refine List.map_congr_left (fun a ha => ?_)
    by_cases ha43 : a = 43
    · simp [ha43]
    · simp [Function.comp, ha43, (hall a ha).2.1]
  rw [hmap]
  exact List.filter_eq_self.mpr (fun a ha => by
    have := hall a ha
    simp only [decide_eq_true_eq]
    exact ⟨this.2.2.1, this.2.2.2.1, this.2.2.2.2⟩)

theorem scriptDecrypt_cipherFix_congr
    (cbc : List Nat → List Nat → List Nat → Option (List Nat))
    (e1 e2 key : List Nat) (h : scriptCipherFix e1 = scriptCipherFix e2) :
    scriptDecrypt cbc e1 key = scriptDecrypt cbc e2 key := by
  unfold scriptDecrypt
  rw [h]

/-! ## Claims -/

/-- C1: signature verification returns true iff all five arguments are
non-empty and the supplied signature equals the lowercase hex digest of the
hash of the lexicographically sorted `[token, timestamp, nonce,
encryptedMsg]` joined with the empty string; in particular it returns false
whenever any argument is missing/empty, and a length mismatch between
digest and signature can never verify. -/
theorem verifyWeComSignature_correct (sha1 : List Nat → List Nat)
    (token timestamp nonce encryptedMsg signature : List Nat) :
    verifyWeComSignature sha1 token timestamp nonce encryptedMsg signature = true ↔
      (token ≠ [] ∧ timestamp ≠ [] ∧ nonce ≠ [] ∧ encryptedMsg ≠ [] ∧ signature ≠ [] ∧
        signature =
          hexDigest (sha1 ((lexSort [token, timestamp, nonce, encryptedMsg]).flatten))) := by
  unfold verifyWeComSignature
  by_cases he : token = [] ∨ timestamp = [] ∨ nonce = [] ∨ encryptedMsg = [] ∨ signature = []
  · simp only [if_pos he]
    simp only [Bool.false_eq_true, false_iff]
    tauto
  · push_neg at he
    obtain ⟨h1, h2, h3, h4, h5⟩ := he
    rw [if_neg (by tauto)]
    set hash := hexDigest (sha1 ((lexSort [token, timestamp, nonce, encryptedMsg]).flatten))
      with hh
    by_cases hl : hash.length ≠ signature.length
    · rw [if_pos hl]
      simp only [Bool.false_eq_true, false_iff]
      intro hc
      exact hl (by rw [hc.2.2.2.2.2])
    · push_neg at hl
      rw [if_neg (show ¬(hash.length ≠ signature.length) from fun h => h hl)]
      simp only [decide_eq_true_eq]
      rw [foldl_lor_zero]
      constructor
      · rintro ⟨-, hall⟩
        exact ⟨h1, h2, h3, h4, h5, ((zipWith_xor_zero _ _ hl).mp hall).symm⟩
      · rintro ⟨-, -, -, -, -, hsig⟩
        exact ⟨rfl, (zipWith_xor_zero _ _ hl).mpr hsig.symm⟩

/-- C2 counterexample: a cipher output whose PKCS#7 padding fails strict
validation (last byte 2, preceding byte 99) but is trimmed by the manual
rule.  The webhook `decryptWeComMessage` returns `none`, while the
behaviour the claim describes (tolerant decode, manual padding removal)
returns the plaintext — so the webhook decryption does not preprocess its
inputs as the claim states. -/
theorem decryptWeComMessage_specClaim_counterexample :
    decryptWeComMessage
        (fun _ _ _ => some (List.replicate 16 0 ++ [0, 0, 0, 1] ++ [104] ++
          List.replicate 9 55 ++ [99, 2]))
        [81, 85, 70, 66] (List.replicate 43 65) [] = none ∧
      decryptWeComMessageAsSpecified
        (fun _ _ _ => some (List.replicate 16 0 ++ [0, 0, 0, 1] ++ [104] ++
          List.replicate 9 55 ++ [99, 2]))
        [81, 85, 70, 66] (List.replicate 43 65) [] = some [104] := by
  refine ⟨by decide, by decide⟩

/-- C2 amended: the key material handling (pad to valid base64 length,
require exactly 32 decoded bytes) belongs to the webhook decryption, but
the tolerant ciphertext fixups and the manual padding removal belong only
to the verification script: the webhook decryption fails whenever the
cipher library's strict automatic PKCS#7 validation rejects the padding,
while the script's `decrypt` is invariant under `+`-to-space corruption of
a ciphertext made of base64 characters with no `+` at either end. -/
theorem wecomDecrypt_preprocessing
    (cbc : List Nat → List Nat → List Nat → Option (List Nat)) (key : List Nat) :
    (∀ enc corp, (wecomKeyBytes key).length ≠ 32 →
        decryptWeComMessage cbc enc key corp = none) ∧
    (∀ enc corp raw,
        cbc (wecomKeyBytes key) ((wecomKeyBytes key).take 16) (base64Decode enc) = some raw →
        pkcs7UnpadStrict raw = none →
        decryptWeComMessage cbc enc key corp = none) ∧
    (∀ enc, (∀ c ∈ enc, (base64CharVal c).isSome = true ∨ c = 61) →
        (∀ a ∈ enc.head?, a ≠ 43) → (∀ a ∈ enc.getLast?, a ≠ 43) →
        scriptDecrypt cbc (spacifyPlus enc) key = scriptDecrypt cbc enc key) := by
  refine ⟨?_, ?_, ?_⟩
  · intro enc corp h32
    exact decryptWeComMessage_none_cases cbc enc key corp (Or.inl h32)
  · intro enc corp raw hraw hpk
    exact decryptWeComMessage_none_cases cbc enc key corp
      (Or.inr (Or.inr (Or.inr (Or.inl ⟨raw, hraw, hpk⟩))))
  · intro enc he hh hl
    exact scriptDecrypt_cipherFix_congr cbc _ enc key
      (by rw [scriptCipherFix_spacify enc he hh hl, scriptCipherFix_id enc he])

/-- C2 witness: the script decrypts a space-corrupted ciphertext exactly as
the uncorrupted one. -/
theorem wecomDecrypt_preprocessing_witness :
    scriptDecrypt (fun _ _ _ => none) (spacifyPlus [81, 43, 70, 66]) (List.replicate 43 65) =
      scriptDecrypt (fun _ _ _ => none) [81, 43, 70, 66] (List.replicate 43 65) :=
  (wecomDecrypt_preprocessing (fun _ _ _ => none) (List.replicate 43 65)).2.2
    [81, 43, 70, 66] (by decide) (by decide) (by decide)

/-- C3 counterexample: a successful structural decryption whose receive id
is empty while the supplied corp id is `"w"` (`[119]`).  The empty receive
id is neither the corp id nor `$` + corp id, yet the plaintext `[104]` is
returned — the identity check is bypassed for an empty receive id. -/
theorem receiveIdCheck_counterexample :
    decryptWeComMessage
        (fun _ _ _ => some (List.replicate 16 0 ++ [0, 0, 0, 1] ++ [104] ++
          List.replicate 11 11))
        [81, 85, 70, 66] (List.replicate 43 65) [119] = some [104] ∧
      decryptWeComMessageRaw
        (fun _ _ _ => some (List.replicate 16 0 ++ [0, 0, 0, 1] ++ [104] ++
          List.replicate 11 11))
        [81, 85, 70, 66] (List.replicate 43 65) = some ([104], []) ∧
      ([] : List Nat) ≠ [119] ∧ ([] : List Nat) ≠ 36 :: [119] := by
  refine ⟨by decide, by decide, by decide, by decide⟩

/-- C3 amended: when a non-empty corp id is supplied and decryption
succeeds, the decrypted receive id is empty, the corp id itself, or the
corp id prefixed with `$` — an identity mismatch of a *non-empty* receive
id is treated as failure, while an empty receive id bypasses the check. -/
theorem decryptWeComMessage_receiveId_guard
    (cbc : List Nat → List Nat → List Nat → Option (List Nat))
    (enc key corp msg : List Nat) (hc : corp ≠ [])
    (h : decryptWeComMessage cbc enc key corp = some msg) :
    ∃ rid, decryptWeComMessageRaw cbc enc key = some (msg, rid) ∧
      (rid = [] ∨ rid = corp ∨ rid = 36 :: corp) := by
  unfold decryptWeComMessage at h
  cases hraw : decryptWeComMessageRaw cbc enc key with
  | none => rw [hraw] at h; exact absurd h (by simp)
  | some p =>
    obtain ⟨m, rid⟩ := p
    rw [hraw] at h
    dsimp only at h
    by_cases hif : corp ≠ [] ∧ rid ≠ [] ∧ rid ≠ corp ∧ rid ≠ 36 :: corp
    · rw [if_pos hif] at h; exact absurd h (by simp)
    · rw [if_neg hif] at h
      have hm : m = msg := by injection h
      subst hm
      exact ⟨rid, rfl, by tauto⟩

/-- C3 witness -/
theorem decryptWeComMessage_receiveId_guard_witness :
    ∃ rid, decryptWeComMessageRaw
        (fun _ _ _ => some (List.replicate 16 0 ++ [0, 0, 0, 1] ++ [104] ++
          List.replicate 11 11))
        [81, 85, 70, 66] (List.replicate 43 65) = some ([104], rid) ∧
      (rid = [] ∨ rid = [119] ∨ rid = 36 :: [119]) :=
  decryptWeComMessage_receiveId_guard _ _ _ [119] [104] (by decide) (by decide)

/-- C4: each enumerated failure — key material not decoding to 32 bytes,
empty/malformed ciphertext decode, a throwing cipher, strict-padding
rejection, plaintext shorter than 20 bytes, message length exceeding the
available bytes — makes `decryptWeComMessage` return `none`; the function
is `Option`-valued throughout (the source's `try/catch` returning `null`),
so no failure escapes as an exception. -/
theorem decryptWeComMessage_failure_modes
    (cbc : List Nat → List Nat → List Nat → Option (List Nat))
    (enc key corp : List Nat)
    (h : (wecomKeyBytes key).length ≠ 32 ∨
      base64Decode enc = [] ∨
      cbc (wecomKeyBytes key) ((wecomKeyBytes key).take 16) (base64Decode enc) = none ∨
      (∃ raw, cbc (wecomKeyBytes key) ((wecomKeyBytes key).take 16) (base64Decode enc)
          = some raw ∧ pkcs7UnpadStrict raw = none) ∨
      (∃ raw d, cbc (wecomKeyBytes key) ((wecomKeyBytes key).take 16) (base64Decode enc)
          = some raw ∧ pkcs7UnpadStrict raw = some d ∧ d.length < 20) ∨
      (∃ raw d, cbc (wecomKeyBytes key) ((wecomKeyBytes key).take 16) (base64Decode enc)
          = some raw ∧ pkcs7UnpadStrict raw = some d ∧ 20 ≤ d.length ∧
          readUInt32BE (d.drop 16) > d.length - 20)) :
    decryptWeComMessage cbc enc key corp = none :=
  decryptWeComMessage_none_cases cbc enc key corp h

/-- C4 witness -/
theorem decryptWeComMessage_failure_modes_witness :
    decryptWeComMessage (fun _ _ _ => none) [] [] [] = none :=
  decryptWeComMessage_failure_modes (fun _ _ _ => none) [] [] [] (Or.inl (by decide))

theorem mapGet_mapSet_self (m : List (List Char × List WebhookBinding))
    (k : List Char) (v : List WebhookBinding) : mapGet (mapSet m k v) k = some v := by
  induction m with
  | nil => simp [mapSet, mapGet]
  | cons e rest ih =>
    obtain ⟨k1, v1⟩ := e
    by_cases hk : k1 = k
    · simp [mapSet, hk, mapGet]
    · simp [mapSet, hk, mapGet, ih]

theorem mapGet_mapDelete_self (m : List (List Char × List WebhookBinding))
    (k : List Char) : mapGet (mapDelete m k) k = none := by
  induction m with
  | nil => rfl
  | cons e rest ih =>
    obtain ⟨k1, v1⟩ := e
    by_cases hk : k1 = k
    · simpa [mapDelete, hk] using ih
    · simpa [mapDelete, hk, mapGet] using ih

/-- C7 -/
theorem webhookRegistry_invariants (m : List (List Char × List WebhookBinding))
    (p np : List Char) (b : WebhookBinding) (accountId : String) :
    (normalizeWebhookPath (p ++ ['/']) = normalizeWebhookPath p ∧
      normalizeWebhookPath [] = ['/']) ∧
    (mapGet (registerWebhookTarget m p b) (normalizeWebhookPath p) =
      some ((mapGet m (normalizeWebhookPath p)).getD [] ++ [b])) ∧
    (mapGet (unregisterWebhookTarget m np accountId) np =
      (if ((mapGet m np).getD []).filter (fun e => e.accountId ≠ accountId) = []
       then none
       else some (((mapGet m np).getD []).filter (fun e => e.accountId ≠ accountId)))) := by
  refine ⟨⟨?_, rfl⟩, ?_, ?_⟩
  · unfold normalizeWebhookPath
    rw [List.reverse_append]
    simp only [List.reverse_cons, List.reverse_nil, List.nil_append, List.singleton_append]
    rw [List.dropWhile_cons_of_pos (by simp)]
  · unfold registerWebhookTarget
    exact mapGet_mapSet_self m (normalizeWebhookPath p) _
  · unfold unregisterWebhookTarget
    by_cases hf : ((mapGet m np).getD []).filter (fun e => e.accountId ≠ accountId) = []
    · simp only [hf, if_pos rfl]
      simpa [hf] using mapGet_mapDelete_self m np
    · simp only [if_neg hf]
      simpa [hf] using mapGet_mapSet_self m np _



/-- C5 counterexample -/
theorem selectPostTarget_counterexample :
    selectPostTarget [⟨"a1", "A"⟩, ⟨"a2", "B"⟩] (some "B") =
        PostTargetSelection.selected ⟨"a2", "B"⟩ ∧
      PostTargetSelection.selected (WebhookBinding.mk "a2" "B") ≠
        PostTargetSelection.selected ⟨"a1", "A"⟩ := by
  refine ⟨by decide, by decide⟩

/-- C5 amended -/
theorem selectPostTarget_characterization
    (targets : List WebhookBinding) (tokenParam : Option String) :
    (∀ t ts, targets = t :: ts →
        (t.webhookToken = "" ∨ tokenParam = some t.webhookToken) →
        selectPostTarget targets tokenParam = .selected t) ∧
    (findPostTarget targets tokenParam = none → jsTruthyParam tokenParam = true →
        selectPostTarget targets tokenParam = .unauthorized) ∧
    (∀ t ts, targets = t :: ts → findPostTarget targets tokenParam = none →
        jsTruthyParam tokenParam = false →
        selectPostTarget targets tokenParam = .selected t) ∧
    (∀ t ts fallback, targets = t :: ts → selectGetAccount targets fallback = some t) := by
  refine ⟨?_, ?_, ?_, ?_⟩
  · rintro t ts rfl hp
    have hfind : findPostTarget (t :: ts) tokenParam = some t := by
      unfold findPostTarget
      rw [List.find?_cons_of_pos]
      by_cases h0 : t.webhookToken = ""
      · simp [h0]
      · rcases hp with hp | hp
        · exact absurd hp h0
        · simp [h0, hp]
    unfold selectPostTarget
    rw [hfind]
  · intro hfind htr
    unfold selectPostTarget
    rw [hfind, htr]
    simp
  · rintro t ts rfl hfind htr
    unfold selectPostTarget
    rw [hfind, htr]
    simp
  · rintro t ts fallback rfl
    rfl

/-- C5 witness -/
theorem selectPostTarget_characterization_witness :
    selectPostTarget [⟨"a1", ""⟩] none = PostTargetSelection.selected ⟨"a1", ""⟩ :=
  (selectPostTarget_characterization [⟨"a1", ""⟩] none).1 ⟨"a1", ""⟩ [] rfl (Or.inl rfl)



/-- C6 -/
theorem handleWeComWebhookGet_cases (sha1 : List Nat → List Nat)
    (cbc : List Nat → List Nat → List Nat → Option (List Nat))
    (account : Option WeComAccountView)
    (echostr msgSignature timestamp nonce : List Nat) :
    (echostr = [] →
      handleWeComWebhookGet sha1 cbc account echostr msgSignature timestamp nonce =
        ⟨200, false, okBody⟩) ∧
    (echostr ≠ [] → accountToken account ≠ [] → msgSignature ≠ [] → timestamp ≠ [] →
      nonce ≠ [] →
      verifyWeComSignature sha1 (accountToken account) timestamp nonce echostr msgSignature
        = false →
      handleWeComWebhookGet sha1 cbc account echostr msgSignature timestamp nonce =
        ⟨401, false, unauthorizedBody⟩) ∧
    (echostr ≠ [] →
      ¬(accountToken account ≠ [] ∧ msgSignature ≠ [] ∧ timestamp ≠ [] ∧ nonce ≠ [] ∧
        verifyWeComSignature sha1 (accountToken account) timestamp nonce echostr msgSignature
          = false) →
      accountAESKey account ≠ [] →
      decryptWeComMessage cbc echostr (accountAESKey account) (accountCorpId account) = none →
      handleWeComWebhookGet sha1 cbc account echostr msgSignature timestamp nonce =
        ⟨400, false, decryptFailedBody⟩) ∧
    (∀ m, echostr ≠ [] →
      ¬(accountToken account ≠ [] ∧ msgSignature ≠ [] ∧ timestamp ≠ [] ∧ nonce ≠ [] ∧
        verifyWeComSignature sha1 (accountToken account) timestamp nonce echostr msgSignature
          = false) →
      accountAESKey account ≠ [] →
      decryptWeComMessage cbc echostr (accountAESKey account) (accountCorpId account)
        = some m →
      handleWeComWebhookGet sha1 cbc account echostr msgSignature timestamp nonce =
        ⟨200, true, m⟩) ∧
    (echostr ≠ [] →
      ¬(accountToken account ≠ [] ∧ msgSignature ≠ [] ∧ timestamp ≠ [] ∧ nonce ≠ [] ∧
        verifyWeComSignature sha1 (accountToken account) timestamp nonce echostr msgSignature
          = false) →
      accountAESKey account = [] →
      handleWeComWebhookGet sha1 cbc account echostr msgSignature timestamp nonce =
        ⟨200, true, echostr⟩) := by
  refine ⟨?_, ?_, ?_, ?_, ?_⟩
  · intro he
    unfold handleWeComWebhookGet
    rw [if_pos he]
  · intro he h1 h2 h3 h4 h5
    unfold handleWeComWebhookGet
    rw [if_neg he, if_pos ⟨h1, h2, h3, h4, h5⟩]
  · intro he hsig hkey hdec
    unfold handleWeComWebhookGet
    rw [if_neg he, if_neg hsig, if_pos hkey, hdec]
  · intro m he hsig hkey hdec
    unfold handleWeComWebhookGet
    rw [if_neg he, if_neg hsig, if_pos hkey, hdec]
  · intro he hsig hkey
    unfold handleWeComWebhookGet
    rw [if_neg he, if_neg hsig, if_neg (by simpa using hkey)]

/-- C6 witness -/
theorem handleWeComWebhookGet_cases_witness :
    handleWeComWebhookGet (fun _ => [])
        (fun _ _ _ => some (List.replicate 16 0 ++ [0, 0, 0, 1] ++ [104] ++
          List.replicate 11 11))
        (some ⟨[], List.replicate 43 65, [119]⟩) [81, 85, 70, 66] [] [] [] =
      ⟨200, true, [104]⟩ :=
  (handleWeComWebhookGet_cases (fun _ => [])
      (fun _ _ _ => some (List.replicate 16 0 ++ [0, 0, 0, 1] ++ [104] ++
        List.replicate 11 11))
      (some ⟨[], List.replicate 43 65, [119]⟩) [81, 85, 70, 66] [] [] []).2.2.2.1
    [104] (by decide) (by decide) (by decide) (by decide)

theorem dropWhile_length_le (l : List Char) (p : Char → Bool) :
    (l.dropWhile p).length ≤ l.length := by
  induction l with
  | nil => simp
  | cons a as ih =>
    by_cases hp : p a
    · rw [List.dropWhile_cons_of_pos hp]
      simp only [List.length_cons]
      omega
    · rw [List.dropWhile_cons_of_neg (by simpa using hp)]

theorem jsTrimStart_split (l : List Char) :
    l = l.takeWhile isJsWs ++ jsTrimStart l ∧ ∀ c ∈ l.takeWhile isJsWs, isJsWs c = true :=
  ⟨(List.takeWhile_append_dropWhile isJsWs l).symm,
   fun _ hc => List.mem_takeWhile_imp hc⟩

theorem jsTrimStart_length_le (l : List Char) : (jsTrimStart l).length ≤ l.length :=
  dropWhile_length_le l isJsWs

theorem jsTrimEnd_split (l : List Char) :
    l = jsTrimEnd l ++ (l.reverse.takeWhile isJsWs).reverse ∧
      ∀ c ∈ (l.reverse.takeWhile isJsWs).reverse, isJsWs c = true := by
  constructor
  · have h := List.takeWhile_append_dropWhile isJsWs l.reverse
    have h2 := congrArg List.reverse h
    rw [List.reverse_append, List.reverse_reverse] at h2
    exact h2.symm
  · intro c hc
    rw [List.mem_reverse] at hc
    exact List.mem_takeWhile_imp hc

theorem jsTrimEnd_length_le (l : List Char) : (jsTrimEnd l).length ≤ l.length := by
  unfold jsTrimEnd
  rw [List.length_reverse]
  calc (l.reverse.dropWhile isJsWs).length ≤ l.reverse.length := dropWhile_length_le _ _
    _ = l.length := List.length_reverse l

theorem lastIndexOfChar_lt_length (s : List Char) (c : Char) :
    lastIndexOfChar s c < (s.length : Int) := by
  unfold lastIndexOfChar
  split
  next i h =>
    have hi : i < s.reverse.length := (List.findIdx?_eq_some_iff_getElem.mp h).1
    rw [List.length_reverse] at hi
    have : s.length - 1 - i < s.length := by omega
    exact_mod_cast this
  next h =>
    have : (0 : Int) ≤ (s.length : Int) := by positivity
    omega

theorem chunkBreakIdx_le (window : List Char) (limit : Nat)
    (hw : window.length ≤ limit) : chunkBreakIdx window limit ≤ limit := by
  have h1 := lastIndexOfChar_lt_length window '\n'
  have h2 := lastIndexOfChar_lt_length window ' '
  unfold chunkBreakIdx
  dsimp only
  split_ifs <;> omega

theorem chunkBreakIdx_pos (window : List Char) (limit : Nat) (hl : 1 ≤ limit) :
    1 ≤ chunkBreakIdx window limit := by
  unfold chunkBreakIdx
  dsimp only
  split_ifs <;> omega

theorem ChunksCover_ws_append (w : List Char) (cs : List (List Char)) (t : List Char)
    (hw : ∀ c ∈ w, isJsWs c = true) (h : ChunksCover cs t) : ChunksCover cs (w ++ t) := by
  cases h
  case nil =>
    rename_i hw2
    exact .nil (w ++ t) (fun c hc => (List.mem_append.mp hc).elim (hw c) (hw2 c))
  case cons =>
    rename_i w2 c2 cs2 t2 hw2 h2
    rw [← List.append_assoc]
    exact .cons (w ++ w2) c2 cs2 t2 (fun x hx => (List.mem_append.mp hx).elim (hw x) (hw2 x)) h2

/-- One loop iteration splits `remaining` into the (possibly empty) trimmed
chunk, removed whitespace, and the next `remaining`. -/
theorem chunkStep_decomp (limit : Nat) (remaining : List Char)
    (_hl : 1 ≤ limit) (hlen : limit < remaining.length) :
    ∃ W, (∀ c ∈ W, isJsWs c = true) ∧
      remaining =
        jsTrimEnd (remaining.take (chunkBreakIdx (remaining.take limit) limit)) ++
          (W ++ jsTrimStart (remaining.drop
            (chunkNextStart remaining (chunkBreakIdx (remaining.take limit) limit)))) := by
  set b := chunkBreakIdx (remaining.take limit) limit with hbdef
  have hble : b ≤ limit := by
    refine chunkBreakIdx_le _ _ ?_
    rw [List.length_take]
    omega
  have hblt : b < remaining.length := by omega
  set e := (if chunkBrokeOnSeparator remaining b then 1 else 0) with hedef
  have hnext : chunkNextStart remaining b = b + e := by
    unfold chunkNextStart
    rw [← hedef]
    have he1 : e ≤ 1 := by rw [hedef]; split_ifs <;> omega
    omega
  have hsep : ∀ c ∈ (remaining.drop b).take e, isJsWs c = true := by
    intro c hc
    rw [hedef] at hc
    by_cases hb : chunkBrokeOnSeparator remaining b
    · rw [if_pos hb] at hc
      unfold chunkBrokeOnSeparator at hb
      cases hd : remaining.drop b with
      | nil => rw [hd] at hb; simp at hb
      | cons x xs =>
        rw [hd] at hb hc
        simp only [List.take_succ_cons, List.take_zero, List.mem_singleton] at hc
        subst hc
        exact hb
    · rw [if_neg hb] at hc
      simp at hc
  obtain ⟨hte, htw⟩ := jsTrimEnd_split (remaining.take b)
  obtain ⟨hts, hsw⟩ := jsTrimStart_split (remaining.drop (b + e))
  refine ⟨((remaining.take b).reverse.takeWhile isJsWs).reverse ++
    ((remaining.drop b).take e ++ (remaining.drop (b + e)).takeWhile isJsWs), ?_, ?_⟩
  · intro c hc
    rcases List.mem_append.mp hc with h | h
    · exact htw c h
    · rcases List.mem_append.mp h with h | h
      · exact hsep c h
      · exact List.mem_takeWhile_imp h
  · rw [hnext]
    have h2 : remaining.drop b = (remaining.drop b).take e ++ remaining.drop (b + e) := by
      conv_lhs => rw [← List.take_append_drop e (remaining.drop b)]
      rw [List.drop_drop]
    conv_lhs => rw [← List.take_append_drop b remaining, h2, hte, hts]
    simp only [List.append_assoc]

/-- Each iteration strictly shrinks `remaining`. -/
theorem chunkRest_length_le (limit : Nat) (remaining : List Char)
    (hl : 1 ≤ limit) (hlen : limit < remaining.length) :
    (jsTrimStart (remaining.drop (chunkNextStart remaining
      (chunkBreakIdx (remaining.take limit) limit)))).length ≤ remaining.length - 1 := by
  set b := chunkBreakIdx (remaining.take limit) limit with hbdef
  have hb1 : 1 ≤ b := chunkBreakIdx_pos _ _ hl
  have hns : 1 ≤ chunkNextStart remaining b := by
    unfold chunkNextStart
    split_ifs <;> omega
  have h1 : (remaining.drop (chunkNextStart remaining b)).length ≤ remaining.length - 1 := by
    rw [List.length_drop]
    omega
  have h2 := jsTrimStart_length_le (remaining.drop (chunkNextStart remaining b))
  omega

theorem chunkLoop_cover (limit : Nat) (hl : 1 ≤ limit) :
    ∀ fuel remaining, remaining.length ≤ fuel →
      ChunksCover (chunkLoop limit fuel remaining) remaining := by
  intro fuel
  induction fuel with
  | zero =>
    intro remaining hr
    have h0 : remaining = [] := List.eq_nil_of_length_eq_zero (by omega)
    subst h0
    rw [chunkLoop]
    simp only [List.length_nil, if_pos]
    exact .nil [] (by simp)
  | succ fuel ih =>
    intro remaining hr
    rw [chunkLoop]
    by_cases hle : remaining.length ≤ limit
    · rw [if_pos hle]
      by_cases h0 : remaining.length = 0
      · rw [if_pos h0]
        have h0n : remaining = [] := List.eq_nil_of_length_eq_zero h0
        subst h0n
        exact .nil [] (by simp)
      · rw [if_neg h0]
        have := ChunksCover.cons [] remaining [] [] (by simp) (.nil [] (by simp))
        simpa using this
    · rw [if_neg hle]
      push_neg at hle
      dsimp only
      obtain ⟨W, hW, hdecomp⟩ := chunkStep_decomp limit remaining hl hle
      set b := chunkBreakIdx (remaining.take limit) limit with hbdef
      set chunk := jsTrimEnd (remaining.take b) with hcdef
      set rest := jsTrimStart (remaining.drop (chunkNextStart remaining b)) with hrdef
      have hrest_len : rest.length ≤ fuel := by
        have := chunkRest_length_le limit remaining hl hle
        rw [← hrdef] at this
        omega
      have hcover_rest := ih rest hrest_len
      by_cases hch : chunk.length = 0
      · rw [if_pos hch]
        have hchnil : chunk = [] := List.eq_nil_of_length_eq_zero hch
        rw [hdecomp, hchnil, List.nil_append]
        exact ChunksCover_ws_append W _ _ hW hcover_rest
      · rw [if_neg hch]
        rw [hdecomp]
        have := ChunksCover.cons [] chunk (chunkLoop limit fuel rest) (W ++ rest) (by simp)
          (ChunksCover_ws_append W _ _ hW hcover_rest)
        simpa using this

theorem chunkLoop_bound (limit : Nat) (hl : 1 ≤ limit) :
    ∀ fuel remaining, remaining.length ≤ fuel →
      ∀ c ∈ chunkLoop limit fuel remaining, c ≠ [] ∧ c.length ≤ limit := by
  intro fuel
  induction fuel with
  | zero =>
    intro remaining hr c hc
    have h0 : remaining = [] := List.eq_nil_of_length_eq_zero (by omega)
    subst h0
    rw [chunkLoop] at hc
    simp at hc
  | succ fuel ih =>
    intro remaining hr c hc
    rw [chunkLoop] at hc
    by_cases hle : remaining.length ≤ limit
    · rw [if_pos hle] at hc
      by_cases h0 : remaining.length = 0
      · rw [if_pos h0] at hc
        simp at hc
      · rw [if_neg h0] at hc
        simp only [List.mem_singleton] at hc
        subst hc
        exact ⟨fun hn => h0 (by rw [hn]; rfl), hle⟩
    · rw [if_neg hle] at hc
      push_neg at hle
      dsimp only at hc
      set b := chunkBreakIdx (remaining.take limit) limit with hbdef
      have hble : b ≤ limit := by
        refine chunkBreakIdx_le _ _ ?_
        rw [List.length_take]
        omega
      set chunk := jsTrimEnd (remaining.take b) with hcdef
      set rest := jsTrimStart (remaining.drop (chunkNextStart remaining b)) with hrdef
      have hrest_len : rest.length ≤ fuel := by
        have := chunkRest_length_le limit remaining hl hle
        rw [← hrdef] at this
        omega
      by_cases hch : chunk.length = 0
      · rw [if_pos hch] at hc
        exact ih rest hrest_len c hc
      · rw [if_neg hch] at hc
        rcases List.mem_cons.mp hc with rfl | hc2
        · refine ⟨fun hn => hch (by rw [hn]; rfl), ?_⟩
          calc chunk.length ≤ (remaining.take b).length := jsTrimEnd_length_le _
            _ ≤ b := by rw [List.length_take]; omega
            _ ≤ limit := hble
        · exact ih rest hrest_len c hc2

/-- C8 counterexample -/
theorem wecomChunker_lastWhitespace_counterexample :
    wecomChunker "a\nb cdefgh".toList 5 =
        [['a'], ['b'], ['c', 'd', 'e', 'f', 'g'], ['h']] ∧
      lastWhitespaceIndex ("a\nb cdefgh".toList.take 5) = some 3 ∧
      (['a'] : List Char) ≠ jsTrimEnd ("a\nb cdefgh".toList.take 3) := by
  refine ⟨by decide, by decide, by decide⟩

/-- C8 amended -/
theorem wecomChunker_amended (text : List Char) (limit : Nat)
    (ht : text ≠ []) (hl : 1 ≤ limit) :
    (∀ c ∈ wecomChunker text limit, c ≠ [] ∧ c.length ≤ limit) ∧
      ChunksCover (wecomChunker text limit) text := by
  unfold wecomChunker
  have hlen : ¬ text.length = 0 := fun h => ht (List.eq_nil_of_length_eq_zero h)
  rw [if_neg hlen]
  by_cases hle : limit = 0 ∨ text.length ≤ limit
  · rw [if_pos hle]
    rcases hle with h | h
    · omega
    · constructor
      · intro c hc
        simp only [List.mem_singleton] at hc
        subst hc
        exact ⟨ht, h⟩
      · have := ChunksCover.cons [] text [] [] (by simp) (.nil [] (by simp))
        simpa using this
  · rw [if_neg hle]
    exact ⟨chunkLoop_bound limit hl text.length text le_rfl,
      chunkLoop_cover limit hl text.length text le_rfl⟩

/-- C8 witness -/
theorem wecomChunker_amended_witness :
    (∀ c ∈ wecomChunker "hello world hi".toList 4, c ≠ [] ∧ c.length ≤ 4) ∧
      ChunksCover (wecomChunker "hello world hi".toList 4) "hello world hi".toList :=
  wecomChunker_amended "hello world hi".toList 4 (by decide) (by decide)

/-- C9 counterexample -/
theorem extractWeComFields_casing_counterexample :
    (extractWeComFields
        (fun k => if k = "fromusername" then some (.str "bob") else none) "a").fromUserId
        = "" ∧
      (extractWeComFields
        (fun k => if k = "fromUserName" then some (.str "bob") else none) "a").fromUserId
        = "" ∧
      (extractWeComFields
        (fun k => if k = "FromUserName" then some (.str "bob") else none) "a").fromUserId
        = "bob" ∧
      extractWeComFields
          (fun k => if k = "fromusername" then some (.str "bob") else none) "a" ≠
        extractWeComFields
          (fun k => if k = "FromUserName" then some (.str "bob") else none) "a" := by
  refine ⟨by decide, by decide, by decide, by decide⟩

/-- C9 amended -/
theorem extractWeComFields_pascalOnly (p q : String → Option JVal) (aid : String)
    (h1 : p "FromUserName" = q "FromUserName") (h2 : p "ToUserName" = q "ToUserName")
    (h3 : p "Content" = q "Content") (h4 : p "MsgId" = q "MsgId")
    (h5 : p "CreateTime" = q "CreateTime") (h6 : p "AgentID" = q "AgentID") :
    extractWeComFields p aid = extractWeComFields q aid := by
  unfold extractWeComFields
  rw [h1, h2, h3, h4, h5, h6]

/-- C9 witness -/
theorem extractWeComFields_pascalOnly_witness :
    extractWeComFields
        (fun k => if k = "fromusername" then some (.str "bob") else none) "a" =
      extractWeComFields (fun _ => none) "a" :=
  extractWeComFields_pascalOnly _ _ "a" (by decide) (by decide) (by decide) (by decide)
    (by decide) (by decide)

/-- C10 -/
theorem sendMessageWeCom_truncates (dest text : List Char) (p : WeComTextParams)
    (h : sendMessageWeComParams dest text = some p) :
    p.content.length ≤ 2048 ∧ p.content = text.take 2048 ∧
      (2048 < text.length → p.content ≠ text) := by
  unfold sendMessageWeComParams at h
  by_cases h1 : jsTrimStart (jsTrimEnd dest) = []
  · rw [if_pos h1] at h
    exact absurd h (by simp)
  · rw [if_neg h1] at h
    by_cases h2 : jsTrimStart (jsTrimEnd text) = []
    · rw [if_pos h2] at h
      exact absurd h (by simp)
    · rw [if_neg h2] at h
      have hp : p = { target := normalizeWeComTarget dest, content := text.take 2048 } := by
        have := Option.some.inj h
        exact this.symm
      subst hp
      refine ⟨?_, rfl, ?_⟩
      · simp [List.length_take]
      · intro hlen hcontra
        have hl2 := congrArg List.length hcontra
        rw [List.length_take] at hl2
        omega

/-- C10 witness -/
theorem sendMessageWeCom_truncates_witness :
    ({ target := normalizeWeComTarget ['u'],
        content := (List.replicate 2049 'a').take 2048 } : WeComTextParams).content.length
        ≤ 2048 ∧
      ({ target := normalizeWeComTarget ['u'],
          content := (List.replicate 2049 'a').take 2048 } : WeComTextParams).content
        = (List.replicate 2049 'a').take 2048 ∧
      (2048 < (List.replicate 2049 'a').length →
        ({ target := normalizeWeComTarget ['u'],
            content := (List.replicate 2049 'a').take 2048 } : WeComTextParams).content
          ≠ List.replicate 2049 'a') :=
  sendMessageWeCom_truncates ['u'] (List.replicate 2049 'a') _ (by
    have hdw : List.dropWhile isJsWs (List.replicate 2049 'a') = List.replicate 2049 'a' := by
      rw [show (2049 : Nat) = 2048 + 1 from rfl, List.replicate_succ]
      exact List.dropWhile_cons_of_neg (by decide)
    have hte : jsTrimEnd (List.replicate 2049 'a') = List.replicate 2049 'a' := by
      unfold jsTrimEnd
      rw [List.reverse_replicate, hdw, List.reverse_replicate]
    have hts : jsTrimStart (jsTrimEnd (List.replicate 2049 'a'))
        = List.replicate 2049 'a' := by
      rw [hte]
      exact hdw
    unfold sendMessageWeComParams
    rw [if_neg (by decide), if_neg (by rw [hts]; simp)])

end WeCom
